import Mathlib

/-!
Verification of the codec and packaging pipeline of src/main.py
(ImageToHeader): the run-length codec, the escape-conflict resolver, the
alpha-channel transform, the per-image packaging decision of main, and the
header table serializer and extractor. Byte buffers are modelled as lists of
naturals, header text as lists of characters; fallible code returns Option.
-/

namespace ImageToHeader

/-- The run count the inner scan of rle_compress computes at the head of
`v :: rest`: the source sets `count = 1` and increments while
`count < min 255 (length - i)` and the byte at `i + count` equals the byte
at `i`, so `count` is the length of the run of `v` at the head, capped at
255 (the run cannot outrun the buffer, so the other arm of the min never
binds). -/
def runCount (v : Nat) (rest : List Nat) : Nat :=
  min (1 + (rest.takeWhile (fun b => b == v)).length) 255

/-- rle_compress from src/main.py: scan left to right; a run of length
`count > 2` is emitted as the triple `[2, count, value]`, otherwise the one
or two bytes of the run are emitted literally; advance by `count`. -/
def rle_compress (data : List Nat) : List Nat :=
  match data with
  | [] => []
  | v :: rest =>
    (if 2 < runCount v rest then [2, runCount v rest, v]
     else (v :: rest).take (runCount v rest))
    ++ rle_compress ((v :: rest).drop (runCount v rest))
termination_by data.length
decreasing_by
  simp only [List.length_drop, List.length_cons, runCount]
  omega

/-- The successive chunks rle_compress appends to its output buffer, one
chunk per iteration of the outer scan loop. -/
def rle_chunks (data : List Nat) : List (List Nat) :=
  match data with
  | [] => []
  | v :: rest =>
    (if 2 < runCount v rest then [2, runCount v rest, v]
     else (v :: rest).take (runCount v rest))
    :: rle_chunks ((v :: rest).drop (runCount v rest))
termination_by data.length
decreasing_by
  simp only [List.length_drop, List.length_cons, runCount]
  omega

/-- rle_decompress from src/main.py: a byte equal to 2 announces a run and
the two bytes after it are its length and value; reading past the end of
the buffer (the source raises IndexError there) is `none`. -/
def rle_decompress (compressed_data : List Nat) : Option (List Nat) :=
  match compressed_data with
  | [] => some []
  | b :: rest =>
    if b = 2 then
      match rest with
      | run_length :: pixel_value :: rest2 =>
        (rle_decompress rest2).map (fun d => List.replicate run_length pixel_value ++ d)
      | _ => none
    else
      (rle_decompress rest).map (fun d => b :: d)

/-- bytearray.find(2) as fix_data_for_rle uses it: the least index holding
byte 2, none for the -1 sentinel. -/
def findTwo (l : List Nat) : Option Nat :=
  match l with
  | [] => none
  | b :: rest => if b = 2 then some 0 else (findTwo rest).map (fun j => j + 1)

/-- The while loop of fix_data_for_rle from src/main.py: working on a copy
of the caller's buffer, repeatedly find the next byte 2 at or after the scan
position and overwrite it with 1, resuming the search one past the found
index. The fuel argument only bounds the iteration count; one position is
consumed per step, so the buffer length is enough fuel. -/
def fix_data_for_rle_go : Nat → List Nat → Nat → List Nat
  | 0, copy, _ => copy
  | fuel + 1, copy, s =>
    match (findTwo (copy.drop s)).map (fun j => s + j) with
    | none => copy
    | some i => fix_data_for_rle_go fuel (copy.set i 1) (i + 1)

/-- fix_data_for_rle from src/main.py. -/
def fix_data_for_rle (data : List Nat) : List Nat :=
  fix_data_for_rle_go data.length data 0

/-- The per-byte effect of conflict resolution: byte 2 becomes 1, every
other byte is kept. -/
def replaceTwo (b : Nat) : Nat := if b = 2 then 1 else b

/-- get_alpha_values from src/main.py: the slice image_data[3::4], every
fourth byte starting at offset 3. -/
def get_alpha_values (image_data : List Nat) : List Nat :=
  match image_data with
  | _ :: _ :: _ :: a :: rest => a :: get_alpha_values rest
  | _ => []

/-- alpha_vals_to_image_data from src/main.py: each alpha byte contributes
the four bytes 255, 255, 255, alpha. -/
def alpha_vals_to_image_data (alpha_values : List Nat) : List Nat :=
  match alpha_values with
  | [] => []
  | a :: rest => 255 :: 255 :: 255 :: a :: alpha_vals_to_image_data rest

/-- The side condition of the conditional inverse: every RGBA pixel of the
buffer has red, green and blue all equal to 255. -/
def allWhiteRGB (x : List Nat) : Bool :=
  match x with
  | r :: g :: b :: _ :: rest => r == 255 && g == 255 && b == 255 && allWhiteRGB rest
  | _ => true

/-- Every byte 2 in the list is the marker of a complete escape triple lying
entirely inside the list: the run length follows with value in [3, 255] and
the run value after that differs from 2. -/
def EscapeSafe (l : List Nat) : Prop :=
  ∀ i, l[i]? = some 2 →
    ∃ n v, 3 ≤ n ∧ n ≤ 255 ∧ v ≠ 2 ∧ l[i + 1]? = some n ∧ l[i + 2]? = some v

/-- One already-decodable item of a compressed stream: a complete escape
triple, or a literal byte other than the marker. -/
def RleItem (c : List Nat) : Prop :=
  (∃ n v, c = [2, n, v]) ∨ (∃ b, b ≠ 2 ∧ c = [b])

/-- One packaged record of the image table: the tuple main of src/main.py
stores per file name, (image_data, width, height, decompressed_size,
is_raw_png, alpha_only). -/
structure ImageRecord where
  image_data : List Nat
  width : Nat
  height : Nat
  decompressed_size : Nat
  is_raw_png : Bool
  alpha_only : Bool
deriving DecidableEq, Repr

/-- The working buffer of the per-image loop in main: the alpha projection
when ALPHA_ONLY is set, the full RGBA buffer otherwise. -/
def working_data (rgba : List Nat) (alphaOnlyMode : Bool) : List Nat :=
  if alphaOnlyMode then get_alpha_values rgba else rgba

/-- The per-image packaging steps of main from src/main.py: project to alpha
if configured, resolve the escape conflicts, compress, then keep the raw
encoded file instead when it is strictly smaller than the compressed data,
clearing alpha_only in that case. -/
def package_image (rgba : List Nat) (width height : Nat) (raw_png_data : List Nat)
    (alphaOnlyMode : Bool) : ImageRecord :=
  if raw_png_data.length <
      (rle_compress (fix_data_for_rle (working_data rgba alphaOnlyMode))).length then
    ImageRecord.mk raw_png_data width height
      (fix_data_for_rle (working_data rgba alphaOnlyMode)).length true false
  else
    ImageRecord.mk (rle_compress (fix_data_for_rle (working_data rgba alphaOnlyMode)))
      width height (fix_data_for_rle (working_data rgba alphaOnlyMode)).length
      false alphaOnlyMode

/-- The tuple extract_image_data stores per matched line, in source order:
(image_data, length, width, height, original_size, is_raw_png,
alpha_only). -/
structure ExtractedRecord where
  image_data : List Nat
  length : Nat
  width : Nat
  height : Nat
  original_size : Nat
  is_raw_png : Bool
  alpha_only : Bool
deriving DecidableEq, Repr

def startsWithCh : List Char → List Char → Bool
  | [], _ => true
  | _ :: _, [] => false
  | d :: ds, c :: cs => d == c && startsWithCh ds cs

def splitChAux : Nat → List Char → List Char → List (List Char)
  | _, _, [] => [[]]
  | 0, _, s => [s]
  | fuel + 1, delim, c :: cs =>
    if startsWithCh delim (c :: cs) then
      [] :: splitChAux fuel delim ((c :: cs).drop delim.length)
    else
      match splitChAux fuel delim cs with
      | [] => [[c]]
      | comp :: comps => (c :: comp) :: comps

/-- str.split of Python on a nonempty separator: cut at every occurrence,
scanning left to right. Text is modelled as character lists throughout the
serialization layer so that every operation evaluates inside the kernel. -/
def splitCh (s delim : List Char) : List (List Char) :=
  splitChAux s.length delim s

def intercalateCh (delim : List Char) : List (List Char) → List Char
  | [] => []
  | [x] => x
  | x :: xs => x ++ delim ++ intercalateCh delim xs

/-- The text before the first occurrence of the delimiter and the text after
it, none when the delimiter does not occur. -/
def splitOnce (s delim : List Char) : Option (List Char × List Char) :=
  match splitCh s delim with
  | [] => none
  | [_] => none
  | x :: xs => some (x, intercalateCh delim xs)

/-- A maximal nonempty run of leading digits and the text after it. -/
def read_digits (s : List Char) : Option (List Char × List Char) :=
  let ds := s.takeWhile Char.isDigit
  if ds.isEmpty then none else some (ds, s.drop ds.length)

def drop_expected (s expected : List Char) : Option (List Char) :=
  if startsWithCh expected s then some (s.drop expected.length) else none

def trimCh (s : List Char) : List Char :=
  ((s.dropWhile Char.isWhitespace).reverse.dropWhile Char.isWhitespace).reverse

def toNatCh (l : List Char) : Option Nat :=
  if l.isEmpty || !(l.all Char.isDigit) then none
  else some (l.foldl (fun acc c => acc * 10 + (c.toNat - 48)) 0)

/-- int(piece) of Python on one entry of the byte list: surrounding
whitespace is ignored, a run of digits is required. -/
def parse_byte (piece : List Char) : Option Nat := toNatCh (trimCh piece)

/-- bool(s) of Python on a string: true exactly when the string is
nonempty. -/
def py_bool (s : List Char) : Bool := !s.isEmpty

def natToChars (n : Nat) : List Char := Nat.toDigits 10 n

/-- The fixed text generate_header emits before the record lines. -/
def header_preamble : List Char :=
  "#pragma once\n\n#include <map>\n#include <string>\n\nstruct ImageData \x7b\n    unsigned char* data;\n    unsigned int size;\n    unsigned int width;\n    unsigned int height;\n    unsigned int originalSize;\n    bool isRawPng;\n    bool alphaOnly;\n\x7d;\n\nstd::map<std::string, ImageData> imageMap = \x7b\n".data

/-- The line generate_header appends per record of the map. -/
def record_line (file_name : List Char) (r : ImageRecord) : List Char :=
  "\x7b \"".data ++ file_name ++ "\", \x7b new unsigned char[".data
    ++ natToChars r.image_data.length ++ "] \x7b ".data
    ++ intercalateCh ",".data (r.image_data.map natToChars) ++ " \x7d, ".data
    ++ natToChars r.image_data.length ++ ", ".data ++ natToChars r.width ++ ", ".data
    ++ natToChars r.height ++ ", ".data ++ natToChars r.decompressed_size ++ ", ".data
    ++ (if r.is_raw_png then "true".data else "false".data) ++ ", ".data
    ++ (if r.alpha_only then "true".data else "false".data) ++ " \x7d \x7d,\n".data

/-- generate_header from src/main.py: the fixed preamble, one line per
record in map order, then the closing brace. -/
def generate_header (image_data_map : List (List Char × ImageRecord)) : List Char :=
  header_preamble
    ++ (image_data_map.map (fun p => record_line p.1 p.2)).flatten
    ++ "\x7d;".data

/-- The effect of re.search of the extraction pattern of src/main.py on one
line whose name holds no quote and no brace: group 1 is the name, group 2
the bracketed length, group 3 the byte list, groups 4 to 7 the four
integers after it, group 8 the lazily matched text before the final closing
brace. The tuple is built from the groups exactly as the source numbers
them: group 4 as width, group 5 as height, group 6 as original_size, bool
of group 7 as is_raw_png and bool of group 8 as alpha_only. -/
def parse_image_line (line : List Char) : Option (List Char × ExtractedRecord) :=
  match splitOnce line "\"".data with
  | none => none
  | some (_, r1) =>
  match splitOnce r1 "\", \x7b new unsigned char[".data with
  | none => none
  | some (g1, r2) =>
  match read_digits r2 with
  | none => none
  | some (g2, r3) =>
  match drop_expected r3 "] \x7b".data with
  | none => none
  | some r4 =>
  match splitOnce r4 "\x7d, ".data with
  | none => none
  | some (g3, r5) =>
  match read_digits r5 with
  | none => none
  | some (g4, r6) =>
  match drop_expected r6 ", ".data with
  | none => none
  | some r7 =>
  match read_digits r7 with
  | none => none
  | some (g5, r8) =>
  match drop_expected r8 ", ".data with
  | none => none
  | some r9 =>
  match read_digits r9 with
  | none => none
  | some (g6, r10) =>
  match drop_expected r10 ", ".data with
  | none => none
  | some r11 =>
  match read_digits r11 with
  | none => none
  | some (g7, r12) =>
  match drop_expected r12 ", ".data with
  | none => none
  | some r13 =>
  match splitOnce r13 " \x7d".data with
  | none => none
  | some (g8, _) =>
  match (splitCh g3 ",".data).mapM parse_byte with
  | none => none
  | some image_data =>
  match toNatCh g2, toNatCh g4, toNatCh g5, toNatCh g6 with
  | some len, some width, some height, some original_size =>
    some (g1, ExtractedRecord.mk image_data len width height original_size
      (py_bool g7) (py_bool g8))
  | _, _, _, _ => none

/-- extract_image_data from src/main.py: split the header into lines, scan
from line index 14 on, and keep the record of every line the pattern
matches. The source keys them by file name in an insertion-ordered dict;
for distinct names that is this association list. -/
def extract_image_data (header : List Char) : List (List Char × ExtractedRecord) :=
  ((splitCh header "\n".data).drop 14).filterMap parse_image_line

theorem take_eq_replicate_of_le_takeWhile (v : Nat) :
    ∀ (l : List Nat) (n : Nat), n ≤ (l.takeWhile (fun b => b == v)).length →
      l.take n = List.replicate n v := by
  intro l
  induction l with
  | nil => intro n hn; simp at hn; simp [hn]
  | cons b rest ih =>
    intro n hn
    by_cases hb : b == v
    · cases n with
      | zero => simp
      | succ m =>
        rw [List.takeWhile_cons, if_pos hb] at hn
        simp only [List.length_cons, Nat.succ_le_succ_iff] at hn
        have hbv : b = v := by simpa using hb
        simp [List.replicate_succ, hbv, ih m hn]
    · rw [List.takeWhile_cons_of_neg (by simpa using hb)] at hn
      simp at hn
      simp [hn]

theorem take_runCount_eq_replicate (v : Nat) (rest : List Nat) :
    (v :: rest).take (runCount v rest) = List.replicate (runCount v rest) v := by
  apply take_eq_replicate_of_le_takeWhile
  rw [List.takeWhile_cons_of_pos (by simp)]
  simp only [List.length_cons, runCount]
  omega

theorem runCount_pos (v : Nat) (rest : List Nat) : 0 < runCount v rest := by
  simp only [runCount]; omega

theorem takeWhile_len_le (p : Nat → Bool) : ∀ l : List Nat, (l.takeWhile p).length ≤ l.length := by
  intro l
  induction l with
  | nil => simp
  | cons b rest ih =>
    rw [List.takeWhile_cons]
    by_cases h : p b
    · simp only [if_pos h, List.length_cons]
      omega
    · simp [if_neg h]

theorem runCount_le_length (v : Nat) (rest : List Nat) :
    runCount v rest ≤ (v :: rest).length := by
  have := takeWhile_len_le (fun b => b == v) rest
  simp only [runCount, List.length_cons]
  omega

theorem rle_decompress_run (c w : Nat) (l : List Nat) :
    rle_decompress (2 :: c :: w :: l) =
      (rle_decompress l).map (fun d => List.replicate c w ++ d) := rfl

theorem rle_decompress_lit (b : Nat) (l : List Nat) (hb : b ≠ 2) :
    rle_decompress (b :: l) = (rle_decompress l).map (fun d => b :: d) := by
  rw [rle_decompress.eq_def]
  simp [hb]

theorem rle_decompress_replicate_append (v : Nat) (hv : v ≠ 2) :
    ∀ (n : Nat) (l : List Nat),
      rle_decompress (List.replicate n v ++ l) =
        (rle_decompress l).map (fun d => List.replicate n v ++ d) := by
  intro n
  induction n with
  | zero => intro l; cases h : rle_decompress l <;> simp [h]
  | succ m ih =>
    intro l
    rw [List.replicate_succ, List.cons_append, rle_decompress_lit v _ hv, ih l]
    cases h : rle_decompress l <;> simp [h, List.replicate_succ]

theorem rle_roundtrip_aux : ∀ (x : List Nat), (∀ b ∈ x, b ≠ 2) →
    rle_decompress (rle_compress x) = some x
  | [], _ => by rw [rle_compress]; rfl
  | v :: rest, h2 => by
    have hv : v ≠ 2 := h2 v (List.mem_cons_self v rest)
    have hdrop : ∀ b ∈ (v :: rest).drop (runCount v rest), b ≠ 2 :=
      fun b hb => h2 b (List.drop_subset _ _ hb)
    have IH : rle_decompress (rle_compress ((v :: rest).drop (runCount v rest))) =
        some ((v :: rest).drop (runCount v rest)) :=
      rle_roundtrip_aux ((v :: rest).drop (runCount v rest)) hdrop
    rw [rle_compress]
    by_cases hc : 2 < runCount v rest
    · rw [if_pos hc]
      simp only [List.cons_append, List.nil_append]
      rw [rle_decompress_run, IH]
      simp only [Option.map_some']
      rw [← take_runCount_eq_replicate, List.take_append_drop]
    · rw [if_neg hc]
      rw [take_runCount_eq_replicate]
      rw [rle_decompress_replicate_append v hv, IH]
      simp only [Option.map_some']
      rw [← take_runCount_eq_replicate, List.take_append_drop]
termination_by x => x.length
decreasing_by
  simp only [List.length_drop, List.length_cons, runCount]
  omega

theorem findTwo_some_lt (l : List Nat) : ∀ (j : Nat), findTwo l = some j → j < l.length := by
  induction l with
  | nil => intro j h; simp [findTwo] at h
  | cons b rest ih =>
    intro j h
    rw [findTwo] at h
    by_cases hb : b = 2
    · rw [if_pos hb] at h
      simp only [Option.some_inj] at h
      simp [← h]
    · rw [if_neg hb] at h
      obtain ⟨j0, hj0, hj⟩ := Option.map_eq_some'.1 h
      have := ih j0 hj0
      simp only [List.length_cons]
      omega

theorem findTwo_none (l : List Nat) (h : findTwo l = none) : ∀ b ∈ l, b ≠ 2 := by
  induction l with
  | nil => simp
  | cons b rest ih =>
    rw [findTwo] at h
    by_cases hb : b = 2
    · simp [hb] at h
    · rw [if_neg hb] at h
      simp only [Option.map_eq_none'] at h
      intro c hc
      rcases List.mem_cons.1 hc with hcb | hcr
      · exact hcb ▸ hb
      · exact ih (by simp [h]) c hcr

theorem findTwo_decomp (l : List Nat) (j : Nat) (h : findTwo l = some j) :
    ∃ l1 l2, l = l1 ++ 2 :: l2 ∧ l1.length = j ∧ ∀ b ∈ l1, b ≠ 2 := by
  induction l generalizing j with
  | nil => simp [findTwo] at h
  | cons b rest ih =>
    rw [findTwo] at h
    by_cases hb : b = 2
    · rw [if_pos hb] at h
      refine ⟨[], rest, ?_, ?_, by simp⟩
      · simp [hb]
      · simp only [Option.some_inj] at h
        simp [← h]
    · rw [if_neg hb] at h
      simp only [Option.map_eq_some'] at h
      obtain ⟨j0, hj0, hj⟩ := h
      obtain ⟨l1, l2, hl, hlen, hno⟩ := ih j0 hj0
      refine ⟨b :: l1, l2, by simp [hl], by simp [hlen, ← hj], ?_⟩
      intro c hc
      rcases List.mem_cons.1 hc with hcb | hcr
      · exact hcb ▸ hb
      · exact hno c hcr

theorem set_append_right : ∀ (A B : List Nat) (n x : Nat),
    (A ++ B).set (A.length + n) x = A ++ B.set n x
  | [], B, n, x => by simp
  | a :: A, B, n, x => by
    have h : (a :: A).length + n = (A.length + n) + 1 := by
      simp only [List.length_cons]; omega
    rw [h]
    simp only [List.cons_append, List.set_cons_succ]
    rw [set_append_right A B n x]

theorem fix_go_spec : ∀ (fuel : Nat) (l : List Nat) (s : Nat), l.length ≤ s + fuel →
    fix_data_for_rle_go fuel l s = l.take s ++ (l.drop s).map replaceTwo := by
  intro fuel
  induction fuel with
  | zero =>
    intro l s hle
    rw [fix_data_for_rle_go]
    have hdl : l.drop s = [] := List.drop_eq_nil_iff.2 (by omega)
    rw [hdl, List.take_of_length_le (by omega)]
    simp
  | succ fuel ih =>
    intro l s hle
    rw [fix_data_for_rle_go]
    split
    next hnone =>
      have h0 : findTwo (l.drop s) = none := Option.map_eq_none'.1 hnone
      have hno2 : ∀ b ∈ l.drop s, b ≠ 2 := findTwo_none _ h0
      have hmap : (l.drop s).map replaceTwo = l.drop s :=
        (List.map_congr_left (fun b hb => by simp [replaceTwo, hno2 b hb])).trans (l.drop s).map_id
      rw [hmap, List.take_append_drop]
    next i hsome =>
      obtain ⟨j, hj, hij0⟩ := Option.map_eq_some'.1 hsome
      have hij : s + j = i := hij0
      obtain ⟨m1, m2, hm, hlen, hno⟩ := findTwo_decomp _ j hj
      have hjlt := findTwo_some_lt _ j hj
      rw [List.length_drop] at hjlt
      have hslen : s < l.length := by omega
      rw [ih (l.set i 1) (i + 1) (by simp only [List.length_set]; omega)]
      rw [List.drop_set, if_pos (by omega)]
      rw [List.set_take]
      have hi1 : i + 1 = s + (j + 1) := by omega
      rw [hi1, List.take_add, hm, ← hij, ← hlen, List.take_append 1]
      have htk : List.take 1 (2 :: m2) = [2] := rfl
      rw [htk]
      have hset : (l.take s ++ (m1 ++ [2])).set (s + m1.length) 1 =
          (l.take s ++ m1) ++ [1] := by
        have hidx : s + m1.length = ((l.take s ++ m1).length + 0) := by
          simp only [List.length_append, List.length_take]
          omega
        rw [← List.append_assoc, hidx, set_append_right]
        simp
      rw [hset]
      have hdd : List.drop (s + (m1.length + 1)) l = m2 := by
        rw [← List.drop_drop, hm, List.append_cons]
        exact List.drop_left' (by simp)
      rw [hdd]
      have hmapm1 : m1.map replaceTwo = m1 :=
        (List.map_congr_left (fun b hb => by simp [replaceTwo, hno b hb])).trans m1.map_id
      simp [replaceTwo, hmapm1]

theorem fix_data_for_rle_eq_map (x : List Nat) :
    fix_data_for_rle x = x.map replaceTwo := by
  rw [fix_data_for_rle, fix_go_spec x.length x 0 (by omega)]
  simp

theorem fix_data_for_rle_no_two (x : List Nat) :
    ∀ b ∈ fix_data_for_rle x, b ≠ 2 := by
  rw [fix_data_for_rle_eq_map]
  intro b hb
  obtain ⟨a, _, ha⟩ := List.mem_map.1 hb
  by_cases h2 : a = 2 <;> simp [replaceTwo, h2] at ha <;> omega

theorem get_alpha_values_getElem? : ∀ (x : List Nat) (i : Nat),
    (get_alpha_values x)[i]? = x[4 * i + 3]?
  | [], i => by simp [get_alpha_values]
  | [a], i => by
    show ([] : List Nat)[i]? = [a][4 * i + 3]?
    rw [List.getElem?_nil]
    exact (List.getElem?_eq_none (by simp only [List.length_cons, List.length_nil]; omega)).symm
  | [a, b], i => by
    show ([] : List Nat)[i]? = [a, b][4 * i + 3]?
    rw [List.getElem?_nil]
    exact (List.getElem?_eq_none (by simp only [List.length_cons, List.length_nil]; omega)).symm
  | [a, b, c], i => by
    show ([] : List Nat)[i]? = [a, b, c][4 * i + 3]?
    rw [List.getElem?_nil]
    exact (List.getElem?_eq_none (by simp only [List.length_cons, List.length_nil]; omega)).symm
  | r :: g :: b :: a :: rest, i => by
    rw [get_alpha_values]
    cases i with
    | zero => simp
    | succ m =>
      have h4 : 4 * (m + 1) + 3 = (4 * m + 3) + 1 + 1 + 1 + 1 := by omega
      rw [h4]
      simp only [List.getElem?_cons_succ]
      exact get_alpha_values_getElem? rest m

theorem alpha_vals_to_image_data_eq_flat (al : List Nat) :
    alpha_vals_to_image_data al = (al.map (fun a => [255, 255, 255, a])).flatten := by
  induction al with
  | nil => rfl
  | cons a rest ih => rw [alpha_vals_to_image_data, ih]; simp

theorem get_alpha_of_expand (al : List Nat) :
    get_alpha_values (alpha_vals_to_image_data al) = al := by
  induction al with
  | nil => rfl
  | cons a rest ih => rw [alpha_vals_to_image_data, get_alpha_values, ih]

theorem expand_extract_iff : ∀ (x : List Nat), 4 ∣ x.length →
    (alpha_vals_to_image_data (get_alpha_values x) = x ↔ allWhiteRGB x = true)
  | [], _ => by simp [get_alpha_values, alpha_vals_to_image_data, allWhiteRGB]
  | [a], h => by simp at h
  | [a, b], h => by rw [Nat.dvd_iff_mod_eq_zero] at h; simp at h
  | [a, b, c], h => by rw [Nat.dvd_iff_mod_eq_zero] at h; simp at h
  | r :: g :: b :: a :: rest, h => by
    have h4 : 4 ∣ rest.length := by
      simp only [List.length_cons] at h
      omega
    have ih := expand_extract_iff rest h4
    rw [get_alpha_values, alpha_vals_to_image_data, allWhiteRGB]
    constructor
    · intro he
      simp only [List.cons.injEq] at he
      obtain ⟨hr, hg, hb, -, htail⟩ := he
      subst hr
      subst hg
      subst hb
      simp [ih.1 htail]
    · intro hw
      simp only [Bool.and_eq_true, beq_iff_eq] at hw
      obtain ⟨⟨⟨hr, hg⟩, hb⟩, hrest⟩ := hw
      subst hr
      subst hg
      subst hb
      simp [ih.2 hrest]

theorem rle_compress_eq_flatten : ∀ (data : List Nat),
    rle_compress data = (rle_chunks data).flatten
  | [] => by rw [rle_compress, rle_chunks]; rfl
  | v :: rest => by
    rw [rle_compress, rle_chunks, List.flatten_cons,
      rle_compress_eq_flatten ((v :: rest).drop (runCount v rest))]
termination_by data => data.length
decreasing_by
  simp only [List.length_drop, List.length_cons, runCount]
  omega

theorem runCount_le_255 (v : Nat) (rest : List Nat) : runCount v rest ≤ 255 := by
  simp only [runCount]
  omega

theorem rle_chunks_shape : ∀ (data : List Nat) (c : List Nat), c ∈ rle_chunks data →
    (∃ n v, c = [2, n, v] ∧ 3 ≤ n ∧ n ≤ 255) ∨ (1 ≤ c.length ∧ c.length ≤ 2)
  | [], _, hc => by rw [rle_chunks] at hc; simp at hc
  | v :: rest, c, hc => by
    rw [rle_chunks] at hc
    rcases List.mem_cons.1 hc with hhead | htail
    · by_cases h2 : 2 < runCount v rest
      · rw [if_pos h2] at hhead
        exact Or.inl ⟨runCount v rest, v, hhead, by omega, runCount_le_255 v rest⟩
      · rw [if_neg h2] at hhead
        refine Or.inr ?_
        have hle := runCount_le_length v rest
        have hpos := runCount_pos v rest
        subst hhead
        rw [List.length_take]
        constructor
        · simp only [List.length_cons] at hle ⊢
          omega
        · omega
    · exact rle_chunks_shape ((v :: rest).drop (runCount v rest)) c htail
termination_by data _ => data.length
decreasing_by
  simp only [List.length_drop, List.length_cons, runCount]
  omega

theorem escapeSafe_append (c r : List Nat)
    (hc : (∃ n v, 3 ≤ n ∧ n ≤ 255 ∧ v ≠ 2 ∧ c = [2, n, v]) ∨ (∀ b ∈ c, b ≠ 2))
    (hr : EscapeSafe r) : EscapeSafe (c ++ r) := by
  intro i hi
  by_cases hlt : i < c.length
  · rw [List.getElem?_append_left hlt] at hi
    rcases hc with ⟨n, v, hn3, hn255, hv, hcv⟩ | hno2
    · subst hcv
      match i, hlt with
      | 0, _ =>
        refine ⟨n, v, hn3, hn255, hv, ?_, ?_⟩
        · rw [List.getElem?_append_left (by simp)]
          rfl
        · rw [List.getElem?_append_left (by simp)]
          rfl
      | 1, _ =>
        exfalso
        simp only [List.getElem?_cons_succ, List.getElem?_cons_zero, Option.some_inj] at hi
        omega
      | 2, _ =>
        exfalso
        simp only [List.getElem?_cons_succ, List.getElem?_cons_zero, Option.some_inj] at hi
        exact hv hi
    · exact absurd rfl (hno2 2 (List.getElem?_mem hi))
  · push_neg at hlt
    rw [List.getElem?_append_right hlt] at hi
    obtain ⟨n, v, hn3, hn255, hv, h1, h2⟩ := hr (i - c.length) hi
    refine ⟨n, v, hn3, hn255, hv, ?_, ?_⟩
    · rw [List.getElem?_append_right (by omega)]
      have : i + 1 - c.length = i - c.length + 1 := by omega
      rw [this]
      exact h1
    · rw [List.getElem?_append_right (by omega)]
      have : i + 2 - c.length = i - c.length + 2 := by omega
      rw [this]
      exact h2

theorem rle_compress_escapeSafe : ∀ (x : List Nat), (∀ b ∈ x, b ≠ 2) →
    EscapeSafe (rle_compress x)
  | [], _ => by
    rw [rle_compress]
    intro i hi
    simp at hi
  | v :: rest, h2 => by
    have hv : v ≠ 2 := h2 v (List.mem_cons_self v rest)
    have hdrop : ∀ b ∈ (v :: rest).drop (runCount v rest), b ≠ 2 :=
      fun b hb => h2 b (List.drop_subset _ _ hb)
    have IH := rle_compress_escapeSafe ((v :: rest).drop (runCount v rest)) hdrop
    rw [rle_compress]
    apply escapeSafe_append _ _ _ IH
    by_cases hcnt : 2 < runCount v rest
    · rw [if_pos hcnt]
      exact Or.inl ⟨runCount v rest, v, by omega, runCount_le_255 v rest, hv, rfl⟩
    · rw [if_neg hcnt]
      refine Or.inr ?_
      rw [take_runCount_eq_replicate]
      intro b hb
      rw [List.eq_of_mem_replicate hb]
      exact hv
termination_by x => x.length
decreasing_by
  simp only [List.length_drop, List.length_cons, runCount]
  omega

theorem decompress_truncated_escape (items : List (List Nat)) (t : List Nat)
    (hitems : ∀ c ∈ items, RleItem c) (ht : t = [2] ∨ ∃ x, t = [2, x]) :
    rle_decompress (items.flatten ++ t) = none := by
  induction items with
  | nil =>
    rcases ht with h1 | ⟨x, h2⟩
    · subst h1; rfl
    · subst h2; rfl
  | cons c cs ih =>
    have hrec := ih (fun d hd => hitems d (List.mem_cons_of_mem c hd))
    rcases hitems c (List.mem_cons_self c cs) with ⟨n, v, hc⟩ | ⟨b, hb, hc⟩
    · subst hc
      rw [List.flatten_cons, List.append_assoc]
      simp only [List.cons_append, List.nil_append]
      rw [rle_decompress_run, hrec]
      rfl
    · subst hc
      rw [List.flatten_cons, List.append_assoc]
      simp only [List.cons_append, List.nil_append]
      rw [rle_decompress_lit b _ hb, hrec]
      rfl

/-- C1: for every byte sequence x containing no byte equal to 2,
decompressing the result of compressing x returns x exactly:
rle_decompress (rle_compress x) = some x. -/
theorem claim_C1_rle_roundtrip (x : List Nat) (h : ∀ b ∈ x, b ≠ 2) :
    rle_decompress (rle_compress x) = some x :=
  rle_roundtrip_aux x h

/-- Witness for C1 at the concrete input [1, 3, 3, 3, 3, 7, 0], which holds
no byte 2. -/
theorem claim_C1_witness :
    rle_decompress (rle_compress [1, 3, 3, 3, 3, 7, 0]) = some [1, 3, 3, 3, 3, 7, 0] :=
  claim_C1_rle_roundtrip [1, 3, 3, 3, 3, 7, 0] (by decide)

set_option maxRecDepth 100000 in
/-- C2: the serialization round trip fails on the code. For the one-record
table named a.png with payload [7], width 3, height 5, decompressedSize 9
and both flags false, extract_image_data applied to generate_header's
output yields width 1 (the payload length, group 4 of the pattern),
height 3 (the width, group 5), original_size 5 (the height, group 6),
is_raw_png true (bool of the nonempty digit string of group 7) and
alpha_only true (bool of the nonempty lazily matched text of group 8):
no field besides the name and the payload bytes survives. -/
theorem claim_C2_extract_misparses :
    extract_image_data (generate_header
        [("a.png".data, ImageRecord.mk [7] 3 5 9 false false)]) =
      [("a.png".data, ExtractedRecord.mk [7] 1 1 3 5 true true)] := by
  decide

/-- C3: the packaging decision engine keeps the raw encoded file with
is_raw_png true and alpha_only false exactly when the raw file is strictly
shorter than the compressed payload; otherwise it keeps the compressed
payload with is_raw_png false and alpha_only as chosen in step 1;
is_raw_png is monotone in the raw length for a fixed image, and no record
has alpha_only and is_raw_png both true. -/
theorem claim_C3_packaging_decision (rgba : List Nat) (width height : Nat)
    (raw_png_data : List Nat) (alphaOnlyMode : Bool) :
    (raw_png_data.length <
        (rle_compress (fix_data_for_rle (working_data rgba alphaOnlyMode))).length →
      package_image rgba width height raw_png_data alphaOnlyMode =
        ImageRecord.mk raw_png_data width height
          (fix_data_for_rle (working_data rgba alphaOnlyMode)).length true false) ∧
    (¬ raw_png_data.length <
        (rle_compress (fix_data_for_rle (working_data rgba alphaOnlyMode))).length →
      package_image rgba width height raw_png_data alphaOnlyMode =
        ImageRecord.mk (rle_compress (fix_data_for_rle (working_data rgba alphaOnlyMode)))
          width height (fix_data_for_rle (working_data rgba alphaOnlyMode)).length
          false alphaOnlyMode) ∧
    (¬ ((package_image rgba width height raw_png_data alphaOnlyMode).alpha_only = true ∧
      (package_image rgba width height raw_png_data alphaOnlyMode).is_raw_png = true)) ∧
    (∀ raw2 : List Nat, raw2.length ≤ raw_png_data.length →
      (package_image rgba width height raw_png_data alphaOnlyMode).is_raw_png = true →
      (package_image rgba width height raw2 alphaOnlyMode).is_raw_png = true) := by
  refine ⟨?_, ?_, ?_, ?_⟩
  · intro h
    rw [package_image, if_pos h]
  · intro h
    rw [package_image, if_neg h]
  · rintro ⟨ha, hr⟩
    by_cases h : raw_png_data.length <
        (rle_compress (fix_data_for_rle (working_data rgba alphaOnlyMode))).length
    · rw [package_image, if_pos h] at ha
      simp at ha
    · rw [package_image, if_neg h] at hr
      simp at hr
  · intro raw2 hle hraw
    by_cases h : raw_png_data.length <
        (rle_compress (fix_data_for_rle (working_data rgba alphaOnlyMode))).length
    · rw [package_image, if_pos (lt_of_le_of_lt hle h)]
    · rw [package_image, if_neg h] at hraw
      simp at hraw

/-- C4: compressing [5, 5] emits the two literal bytes with no escape,
compressing [5, 5, 5] emits exactly [2, 3, 5], the output of rle_compress
is the concatenation of its per-iteration chunks, and every chunk is either
an escape triple [2, runLength, value] with runLength in [3, 255] or a
literal run of one or two bytes. -/
theorem claim_C4_run_threshold :
    rle_compress [5, 5] = [5, 5] ∧ rle_compress [5, 5, 5] = [2, 3, 5] ∧
    (∀ data : List Nat, rle_compress data = (rle_chunks data).flatten) ∧
    (∀ (data : List Nat) (c : List Nat), c ∈ rle_chunks data →
      (∃ n v, c = [2, n, v] ∧ 3 ≤ n ∧ n ≤ 255) ∨ (1 ≤ c.length ∧ c.length ≤ 2)) :=
  ⟨by simp [rle_compress, runCount], by simp [rle_compress, runCount],
    rle_compress_eq_flatten, rle_chunks_shape⟩

/-- C5: fix_data_for_rle returns the input with every occurrence of byte 2
replaced by byte 1, so the result holds no byte equal to 2; the function
works on a copy, the caller's buffer being a value of the pure model. -/
theorem claim_C5_fix_data (x : List Nat) :
    fix_data_for_rle x = x.map replaceTwo ∧ ∀ b ∈ fix_data_for_rle x, b ≠ 2 :=
  ⟨fix_data_for_rle_eq_map x, fix_data_for_rle_no_two x⟩

/-- C6: get_alpha_values returns exactly every fourth byte starting at
offset 3 (stated on the eight-byte example and through the index
characterization), and alpha_vals_to_image_data maps each alpha byte a to
the four bytes [255, 255, 255, a] in order. -/
theorem claim_C6_alpha_projection :
    (∀ r g b a r2 g2 b2 a2 : Nat,
      get_alpha_values [r, g, b, a, r2, g2, b2, a2] = [a, a2]) ∧
    (∀ (x : List Nat) (i : Nat), (get_alpha_values x)[i]? = x[4 * i + 3]?) ∧
    (∀ al : List Nat,
      alpha_vals_to_image_data al = (al.map (fun a => [255, 255, 255, a])).flatten) ∧
    (∀ a : Nat, alpha_vals_to_image_data [a] = [255, 255, 255, a]) :=
  ⟨fun _ _ _ _ _ _ _ _ => rfl, get_alpha_values_getElem?,
    alpha_vals_to_image_data_eq_flat, fun _ => rfl⟩

/-- C7: for every RGBA buffer whose length is a multiple of 4, expanding
the extracted alpha channel reproduces the buffer exactly when every pixel
has red, green and blue equal to 255. -/
theorem claim_C7_expand_extract (x : List Nat) (h : 4 ∣ x.length) :
    alpha_vals_to_image_data (get_alpha_values x) = x ↔ allWhiteRGB x = true :=
  expand_extract_iff x h

/-- Witness for C7 at the concrete two-pixel buffer
[255, 255, 255, 7, 255, 255, 255, 9] of length 8. -/
theorem claim_C7_witness :
    alpha_vals_to_image_data (get_alpha_values [255, 255, 255, 7, 255, 255, 255, 9]) =
        [255, 255, 255, 7, 255, 255, 255, 9] ↔
      allWhiteRGB [255, 255, 255, 7, 255, 255, 255, 9] = true :=
  claim_C7_expand_extract [255, 255, 255, 7, 255, 255, 255, 9] (by decide)

/-- C8: a compressed stream made of complete items followed by a truncated
escape, the marker byte 2 with fewer than two bytes after it, makes
rle_decompress fail with none instead of reading out of bounds. -/
theorem claim_C8_truncated_escape (items : List (List Nat)) (t : List Nat)
    (hitems : ∀ c ∈ items, RleItem c) (ht : t = [2] ∨ ∃ x, t = [2, x]) :
    rle_decompress (items.flatten ++ t) = none :=
  decompress_truncated_escape items t hitems ht

/-- Witness for C8 at the concrete input [7, 2]: one literal item and then
the marker as the final byte. -/
theorem claim_C8_witness : rle_decompress [7, 2] = none :=
  claim_C8_truncated_escape [[7]] [2]
    (by
      intro c hc
      rw [List.mem_singleton] at hc
      subst hc
      exact Or.inr ⟨7, by decide, rfl⟩)
    (Or.inl rfl)

/-- C9: extracting the alpha channel of an expanded alpha buffer returns the
buffer unchanged, with no precondition. -/
theorem claim_C9_extract_expand (al : List Nat) :
    get_alpha_values (alpha_vals_to_image_data al) = al :=
  get_alpha_of_expand al

/-- C10: on inputs with no byte 2 the output of rle_compress is well formed:
every occurrence of byte 2 in it is the marker of a complete escape triple
lying inside the output, and rle_decompress succeeds on it, never indexing
past the end. -/
theorem claim_C10_compress_wellformed (x : List Nat) (h : ∀ b ∈ x, b ≠ 2) :
    EscapeSafe (rle_compress x) ∧ (rle_decompress (rle_compress x)).isSome = true :=
  ⟨rle_compress_escapeSafe x h, by rw [rle_roundtrip_aux x h]; rfl⟩

/-- Witness for C10 at the concrete input [9, 9, 9, 9, 5], which holds no
byte 2 and compresses to an escape triple and a literal. -/
theorem claim_C10_witness :
    (rle_decompress (rle_compress [9, 9, 9, 9, 5])).isSome = true :=
  (claim_C10_compress_wellformed [9, 9, 9, 9, 5] (by decide)).2

end ImageToHeader
